import Mathlib

/-!
# Verification of the incremental inheritance-index core

Shallow embedding of the incremental indexing engine of the
python-inheritance-navigator repository:

* the data model of `src/analysis/types.ts` (`MethodLocation`,
  `MethodRelationship`, `ClassInheritance`, `FileInheritanceData`,
  `InheritanceIndex`),
* the query/resolution algorithms of `src/index.ts`
  (`getRelationshipsForMethod`, `getClassInheritance`,
  `_indexFileOnDemand`, `_saveIndexToFile` / `loadIndexFromFile`),
* the change-coalescing queue and bounded-concurrency batch scheduler of
  `src/utils/fileChangeQueue.ts` (`FileChangeQueue`).

JS objects are modelled as association lists preserving key insertion
order (the iteration order of `Object.entries` / `Object.keys`), JS
`Set<string>` as duplicate-free lists preserving insertion order, and JS
numbers holding source line numbers as `Int`.
-/

namespace PyInherit

/-! ## String helpers

The source repeatedly computes `name.split('.').pop()` (the last
`'.'`-separated segment) and `name.split('.').pop() || name` (the same,
except that a falsy — i.e. empty — last segment falls back to the whole
string).  We implement the "last segment" computation by structural
recursion over the character list so that it reduces in the kernel. -/

/-- Characters of the last `'.'`-separated segment of a character list:
`lastSegChars cs acc` scans `cs`, resetting the accumulator at each `'.'`.
Equivalent to `s.split('.')`'s last element in JavaScript. -/
def lastSegChars : List Char → List Char → List Char
  | [], acc => acc
  | c :: cs, acc => if c = '.' then lastSegChars cs [] else lastSegChars cs (acc ++ [c])

/-- `parts[parts.length - 1]` for `parts = s.split('.')` — the trailing
`'.'`-separated component of `s` (possibly empty, e.g. for `"a."`). -/
def lastSeg (s : String) : String := ⟨lastSegChars s.data []⟩

/-- `s.split('.').pop() || s`: the trailing component, falling back to the
whole string when the trailing component is the empty string (JS falsy). -/
def shortName (s : String) : String :=
  if lastSeg s = "" then s else lastSeg s

/-- `s.replace(/\\/g, '/')`: replace every backslash by a forward slash. -/
def normSlash (s : String) : String :=
  ⟨s.data.map (fun c => if c = '\\' then '/' else c)⟩

/-- JavaScript `hay.endsWith(needle)`. -/
def strEndsWith (hay needle : String) : Bool :=
  needle.data == hay.data.drop (hay.data.length - needle.data.length)

/-- `needle` occurs at the start of `hay` (character-list form). -/
def leadsWith : List Char → List Char → Bool
  | [], _ => true
  | _ :: _, [] => false
  | c :: cs, d :: ds => c == d && leadsWith cs ds

/-- JavaScript `hay.startsWith(needle)`. -/
def strStartsWith (hay needle : String) : Bool :=
  leadsWith needle.data hay.data

/-- `needle` occurs somewhere inside the character list. -/
def containsChars (needle : List Char) : List Char → Bool
  | [] => needle.isEmpty
  | c :: cs => leadsWith needle (c :: cs) || containsChars needle cs

/-- JavaScript `hay.includes(needle)`. -/
def strIncludes (hay needle : String) : Bool :=
  containsChars needle.data hay.data

/-- JS `Set<string>` insertion: adding an element already present leaves the
set (and its insertion order) unchanged; otherwise it is appended. -/
def addSet (l : List String) (s : String) : List String :=
  bif l.contains s then l else l ++ [s]

/-- JS `Set<string>.delete`: remove every occurrence of `s`. -/
def removeSet (l : List String) (s : String) : List String :=
  l.filter (fun x => x != s)

/-! ## Data model (`src/analysis/types.ts`) -/

/-- `interface MethodLocation` of `src/analysis/types.ts`. -/
structure MethodLocation where
  name : String
  class_name : String
  file_path : String
  line : Int
  column : Int
  end_line : Int
  end_column : Int
  is_async : Option Bool := none
  is_abstract : Option Bool := none
  decorators : Option (List String) := none
  deriving DecidableEq

/-- `interface MethodRelationship` of `src/analysis/types.ts`. -/
structure MethodRelationship where
  method : MethodLocation
  base_methods : List MethodLocation
  override_methods : List MethodLocation
  deriving DecidableEq

/-- `interface ClassInheritance` of `src/analysis/types.ts`
(`line?` is an optional class-definition line). -/
structure ClassInheritance where
  full_name : String
  base_classes : List String
  sub_classes : List String
  line : Option Int := none
  deriving DecidableEq

/-- `interface FileInheritanceData`: both fields are optional in the
source; the `classes` mapping is an association list in JS object key
order. -/
structure FileInheritanceData where
  methods : Option (List MethodRelationship) := none
  classes : Option (List (String × ClassInheritance)) := none
  deriving DecidableEq

/-- A value of `InheritanceIndex` is `MethodRelationship[] |
FileInheritanceData` in the source; `Array.isArray` discriminates. -/
inductive FileData where
  | arr (rels : List MethodRelationship)
  | full (data : FileInheritanceData)
  deriving DecidableEq

/-- `interface InheritanceIndex`: mapping from file path to per-file data,
modelled as an association list in JS object key order. -/
abbrev InheritanceIndex := List (String × FileData)

/-- JS object property read `idx[key]` (first binding of the key). -/
def lookupIndex (idx : InheritanceIndex) (key : String) : Option FileData :=
  (idx.find? (fun p => p.1 == key)).map Prod.snd

/-- JS object property write `idx[key] = v`: an existing key keeps its
position, a new key is appended. -/
def setKey (idx : InheritanceIndex) (key : String) (v : FileData) : InheritanceIndex :=
  if (idx.find? (fun p => p.1 == key)).isSome then
    idx.map (fun p => if p.1 == key then (key, v) else p)
  else idx ++ [(key, v)]

/-- `delete idx[key]`. -/
def deleteKey (idx : InheritanceIndex) (key : String) : InheritanceIndex :=
  idx.filter (fun p => p.1 != key)

/-- `Array.isArray(fileData) ? fileData : fileData.methods || []` — the
method-relationship list of a per-file entry. -/
def relsOfFileData : FileData → List MethodRelationship
  | .arr rels => rels
  | .full d => d.methods.getD []

/-- All method relationships of all indexed files, in
`Object.entries` order — the sequence visited by the source's
`for (const [, otherFileData] of Object.entries(this.index))` loops. -/
def allRels (idx : InheritanceIndex) : List MethodRelationship :=
  (idx.map (fun p => relsOfFileData p.2)).flatten

/-- The `'classes' in fileData` / `fileInheritance.classes` guard: an
array has no `classes` property; a `FileInheritanceData` exposes it when
present (an empty mapping is truthy in JS and is passed through). -/
def classesOfFileData : FileData → Option (List (String × ClassInheritance))
  | .arr _ => none
  | .full d => d.classes

/-! ## Path-format resolution

Both `getRelationshipsForMethod` and `getClassInheritance` start by
resolving the requested path against the index keys: an exact key is used
directly; otherwise the first key equal to the request modulo
backslash/forward-slash normalization, or related to it by suffix
containment, is substituted (`filePath = matchingKey`).  The resulting
pair is the (possibly replaced) path together with `fileFoundInIndex`. -/

/-- The `indexKeys.find(...)` predicate of `src/index.ts`:
normalized equality or mutual suffix containment. -/
def keyMatchesPath (normalizedPath key : String) : Bool :=
  let nk := normSlash key
  nk == normalizedPath || strEndsWith nk normalizedPath ||
    strEndsWith normalizedPath nk

/-- `indexKeys.find(key => ...)` over `Object.keys(this.index)`. -/
def findMatchingKey (idx : InheritanceIndex) (filePath : String) : Option String :=
  (idx.map Prod.fst).find? (keyMatchesPath (normSlash filePath))

/-- Path resolution prologue shared by `getRelationshipsForMethod` and
`getClassInheritance`: returns the effective `filePath` and
`fileFoundInIndex`.  (The on-demand indexing trigger in the not-found
branch is fire-and-forget: it mutates the index only after an `await`,
so it cannot affect the current, synchronous query.) -/
def resolveFilePath (idx : InheritanceIndex) (filePath : String) : String × Bool :=
  match lookupIndex idx filePath with
  | some _ => (filePath, true)
  | none =>
    match findMatchingKey idx filePath with
    | some k => (k, true)
    | none => (filePath, false)

/-! ## `getRelationshipsForMethod` (`src/index.ts`, lines 484–649) -/

/-- Strategy 1 of `getRelationshipsForMethod` (lines 534–567): if the
file was found in the index (possibly after path-format resolution),
the first of its relationships whose class name matches by full name or
trailing-component short name, whose method name matches exactly, and
whose recorded line is within ±1 of the query line. -/
def searchFileRelationships (idx : InheritanceIndex) (resolved : String × Bool)
    (className classNameShort methodName : String) (line : Int) :
    Option MethodRelationship :=
  if resolved.2 then
    match lookupIndex idx resolved.1 with
    | some fileData =>
      (relsOfFileData fileData).find? (fun rel =>
        (rel.method.class_name == className ||
          shortName rel.method.class_name == classNameShort) &&
        rel.method.name == methodName &&
        decide ((rel.method.line - line).natAbs ≤ 1))
    | none => none
  else none

/-- Strategy 2 of `getRelationshipsForMethod` (lines 580–604): the first
relationship across every indexed file matching class and method by the
same full/short-name rule, with the relaxed ±5 line tolerance. -/
def searchAllFiles (idx : InheritanceIndex)
    (className classNameShort methodName : String) (line : Int) :
    Option MethodRelationship :=
  (allRels idx).find? (fun rel =>
    (rel.method.class_name == className ||
      shortName rel.method.class_name == classNameShort) &&
    rel.method.name == methodName &&
    decide ((rel.method.line - line).natAbs ≤ 5))

/-- Strategy 3 of `getRelationshipsForMethod` (lines 606–645): the first
relationship anywhere whose `base_methods` contains an entry matching
the queried class (full/short-name rule) and method name — i.e. a
subclass method overriding the queried base method. -/
def searchBaseOverrides (idx : InheritanceIndex)
    (className classNameShort methodName : String) :
    Option MethodRelationship :=
  (allRels idx).find? (fun rel =>
    rel.base_methods.any (fun baseMethod =>
      (baseMethod.class_name == className ||
        shortName baseMethod.class_name == classNameShort) &&
      baseMethod.name == methodName))

/-- The synthesized relationship returned by strategy 3 (lines 629–641):
a record for the *queried* method, with empty `base_methods` and the
discovered subclass method as the sole override. -/
def synthesizedFor (resolvedPath className methodName : String) (line : Int)
    (rel : MethodRelationship) : MethodRelationship :=
  { method :=
      { name := methodName
        class_name := className
        file_path := resolvedPath
        line := line
        column := 0
        end_line := line
        end_column := 0 }
    base_methods := []
    override_methods := [rel.method] }

/-- `InheritanceIndexManager.getRelationshipsForMethod`: the three
strategies in order, each returning on its first match. -/
def getRelationshipsForMethod (idx : InheritanceIndex)
    (filePath className methodName : String) (line : Int) :
    Option MethodRelationship :=
  match searchFileRelationships idx (resolveFilePath idx filePath)
      className (shortName className) methodName line with
  | some rel => some rel
  | none =>
    match searchAllFiles idx className (shortName className) methodName line with
    | some rel => some rel
    | none =>
      match searchBaseOverrides idx className (shortName className) methodName with
      | some rel =>
        some (synthesizedFor (resolveFilePath idx filePath).1
          className methodName line rel)
      | none => none

/-! ## `getClassInheritance` (`src/index.ts`, lines 651–842) -/

/-- The class-level lookup inside one file's `classes` mapping: exact key
first (`fileInheritance.classes[className]`), then the first entry whose
key's trailing-component short name matches (or whose key equals the full
name). -/
def lookupClasses (classes : List (String × ClassInheritance))
    (className classNameShort : String) : Option ClassInheritance :=
  match (classes.find? (fun p => p.1 == className)).map Prod.snd with
  | some ci => some ci
  | none =>
    (classes.find? (fun p =>
      shortName p.1 == classNameShort || p.1 == className)).map Prod.snd

/-- Class-level lookup applied to one per-file entry (guarded by
`'classes' in fileData` and the truthiness of `fileInheritance.classes`). -/
def findClassInfoInFile (fd : FileData) (className classNameShort : String) :
    Option ClassInheritance :=
  match classesOfFileData fd with
  | some classes => lookupClasses classes className classNameShort
  | none => none

/-- The class-level data search of `getClassInheritance`: first in the
resolved file's own record, then scanning every indexed file in
`Object.entries` order. -/
def findClassInfo (idx : InheritanceIndex) (filePath className : String) :
    Option ClassInheritance :=
  let classNameShort := shortName className
  let resolved := resolveFilePath idx filePath
  let localInfo : Option ClassInheritance :=
    if resolved.2 then
      match lookupIndex idx resolved.1 with
      | some fd => findClassInfoInFile fd className classNameShort
      | none => none
    else none
  match localInfo with
  | some ci => some ci
  | none => idx.findSome? (fun p => findClassInfoInFile p.2 className classNameShort)

/-- The result record of `getClassInheritance`. -/
structure ClassInheritanceResult where
  baseClasses : List String
  subClasses : List String
  classLine : Option Int := none
  deriving DecidableEq

/-- The method-level inference fallback of `getClassInheritance`
(`src/index.ts`, lines 779–839): accumulate base/sub class names into two
insertion-ordered sets, first from the resolved file's own relationships,
then from every indexed file's relationships. -/
def methodLevelFallback (idx : InheritanceIndex) (resolved : String × Bool)
    (className classNameShort : String) : List String × List String :=
  let own : List String × List String :=
    if resolved.2 then
      match lookupIndex idx resolved.1 with
      | some fd =>
        (relsOfFileData fd).foldl (fun acc rel =>
          if rel.method.class_name == className ||
              shortName rel.method.class_name == classNameShort then
            (rel.base_methods.foldl (fun b bm => addSet b bm.class_name) acc.1,
             rel.override_methods.foldl (fun s om => addSet s om.class_name) acc.2)
          else acc) ([], [])
      | none => ([], [])
    else ([], [])
  (allRels idx).foldl (fun acc rel =>
    let subs1 := rel.base_methods.foldl (fun s bm =>
      if bm.class_name == className || shortName bm.class_name == classNameShort
      then addSet s rel.method.class_name else s) acc.2
    if rel.method.class_name == className ||
        shortName rel.method.class_name == classNameShort then
      (rel.base_methods.foldl (fun b bm => addSet b bm.class_name) acc.1,
       rel.override_methods.foldl (fun s om => addSet s om.class_name) subs1)
    else (acc.1, subs1)) own

/-- `InheritanceIndexManager.getClassInheritance`.  The optional `_line`
argument is ignored by the source (its name carries the
underscore-unused convention) and is therefore not consulted here
either.  Class-level data wins and its base/sub names are mapped to
their trailing components; otherwise the method-level fallback returns
the accumulated (full, unshortened) class names when nonempty. -/
def getClassInheritance (idx : InheritanceIndex)
    (filePath className : String) (_line : Option Int := none) :
    Option ClassInheritanceResult :=
  let classNameShort := shortName className
  let resolved := resolveFilePath idx filePath
  match findClassInfo idx filePath className with
  | some ci =>
    some { baseClasses := ci.base_classes.map lastSeg
           subClasses := ci.sub_classes.map lastSeg
           classLine := ci.line }
  | none =>
    let fallback := methodLevelFallback idx resolved className classNameShort
    if fallback.1.length > 0 || fallback.2.length > 0 then
      some { baseClasses := fallback.1
             subClasses := fallback.2
             classLine := none }
    else none

/-! ## Snapshot persistence (`src/index.ts`, lines 113–182)

File I/O and JSON (de)serialization are modelled as the identity on the
written document: `_saveIndexToFile` produces the versioned envelope
`{ version: '1.0', timestamp, workspaceRoot, index }`, and
`loadIndexFromFile` validates a parsed document that is either such an
envelope or a bare legacy mapping. -/

/-- The versioned snapshot envelope written by `_saveIndexToFile`. -/
structure SavedIndexEnvelope where
  version : String
  timestamp : String
  workspaceRoot : String
  index : InheritanceIndex
  deriving DecidableEq

/-- A successfully parsed snapshot document: either the versioned
envelope or (legacy) a bare index mapping. -/
inductive ParsedIndexFile where
  | envelope (e : SavedIndexEnvelope)
  | bare (m : InheritanceIndex)
  deriving DecidableEq

/-- `InheritanceIndexManager._saveIndexToFile`: the document written to
disk (version is the literal `'1.0'`). -/
def saveIndexToFile (timestamp workspaceRoot : String)
    (idx : InheritanceIndex) : ParsedIndexFile :=
  .envelope { version := "1.0", timestamp := timestamp,
              workspaceRoot := workspaceRoot, index := idx }

/-- The validation logic of `InheritanceIndexManager.loadIndexFromFile` on
a parsed document.  `if (parsed.version && parsed.index)` accepts an
envelope whose version string is truthy (nonempty) — the `index` object
itself is always truthy in JS, even when empty, so a present-but-empty
index under a version tag loads successfully.  A bare legacy mapping
loads iff it has at least one key (`Object.keys(parsed).length > 0`).
`none` models `return false` (no usable snapshot). -/
def loadIndexFromFile : ParsedIndexFile → Option InheritanceIndex
  | .envelope e => if e.version != "" then some e.index else none
  | .bare m => if m.length > 0 then some m else none

/-! ## Whole-file replace and on-demand single-file indexing
(`src/index.ts`, lines 394–468) -/

/-- `InheritanceIndexManager._updateFileInIndexWithoutSaving`:
whole-file replace — if the analyzer result contains the file, its entry
is replaced outright; otherwise the entry is deleted. -/
def updateFileInIndexWithoutSaving (idx : InheritanceIndex)
    (filePath : String) (fileIndex : InheritanceIndex) : InheritanceIndex :=
  match lookupIndex fileIndex filePath with
  | some fd => setKey idx filePath fd
  | none => deleteKey idx filePath

/-- The `InheritanceIndexManager` state touched by on-demand indexing. -/
structure ManagerState where
  index : InheritanceIndex
  filesBeingIndexed : List String
  filesWithSyntaxErrors : List String
  deriving DecidableEq

/-- Outcome of the awaited `pythonClient.analyzeFile(filePath)` call:
either the analyzer's result mapping or a rejection with an error
message. -/
inductive AnalyzeOutcome where
  | success (fileIndex : InheritanceIndex)
  | failure (errorMessage : String)
  deriving DecidableEq

/-- `InheritanceIndexManager._indexFileOnDemand`, one complete attempt:
the five guard short-circuits (already indexed, sticky syntax error,
already in flight, nonexistent file, outside the workspace root), then
mark the path in `filesBeingIndexed`, run the analyzer, on success apply
the whole-file replace and clear the sticky syntax-error mark, on failure
mark the sticky syntax-error set when the message mentions a syntax
error (the error is swallowed, never rethrown), and in the `finally`
block always remove the path from `filesBeingIndexed`. -/
def indexFileOnDemand (workspaceRoot : String) (fileExists : Bool)
    (st : ManagerState) (filePath : String) (outcome : AnalyzeOutcome) :
    ManagerState :=
  bif (lookupIndex st.index filePath).isSome then st
  else bif st.filesWithSyntaxErrors.contains filePath then st
  else bif st.filesBeingIndexed.contains filePath then st
  else bif !fileExists then st
  else bif !(strStartsWith filePath workspaceRoot) then st
  else
    let st1 := { st with filesBeingIndexed := addSet st.filesBeingIndexed filePath }
    let st2 :=
      match outcome with
      | .success fileIndex =>
        { st1 with
            index := updateFileInIndexWithoutSaving st1.index filePath fileIndex
            filesWithSyntaxErrors := removeSet st1.filesWithSyntaxErrors filePath }
      | .failure msg =>
        bif strIncludes msg "invalid syntax" || strIncludes msg "syntax error" then
          { st1 with filesWithSyntaxErrors := addSet st1.filesWithSyntaxErrors filePath }
        else st1
    { st2 with filesBeingIndexed := removeSet st2.filesBeingIndexed filePath }

/-! ## `FileChangeQueue` (`src/utils/fileChangeQueue.ts`)

The queue is modelled as a state machine.  The events are the four entry
points into the class's state: `addFile`, the debounce timer firing
(`processBatch`), one in-flight batch completing (the `.finally` handler
of `processBatchAsync` — `processBatchAsync` itself catches any
rejection of the batch processor and never rethrows, so the success and
failure completions run the identical `.finally` code), and `dispose`.
`started` records every batch ever handed to the batch processor;
`inFlight` the batches currently outstanding. -/

/-- The mutable state of a `FileChangeQueue`. -/
structure QueueState where
  pendingFiles : List String
  batchQueue : List (List String)
  activeBatchCount : Nat
  inFlight : List (List String)
  started : List (List String)
  isDisposed : Bool
  deriving DecidableEq

/-- Constructor configuration (`batchSize`, `maxConcurrent`). -/
structure QueueConfig where
  batchSize : Nat
  maxConcurrent : Nat
  deriving DecidableEq

/-- The freshly constructed queue. -/
def initialQueueState : QueueState :=
  { pendingFiles := [], batchQueue := [], activeBatchCount := 0,
    inFlight := [], started := [], isDisposed := false }

/-- The batch-cutting loop of `processBatch`
(`for (let i = 0; i < files.length; i += batchSize)
   batches.push(files.slice(i, i + batchSize))`),
written with explicit fuel (one unit per slice; `files.length` units
suffice whenever `batchSize ≥ 1`) so that it reduces in the kernel. -/
def chunkAux (batchSize : Nat) : Nat → List String → List (List String)
  | 0, _ => []
  | _ + 1, [] => []
  | fuel + 1, f :: fs =>
    (f :: fs.take (batchSize - 1)) :: chunkAux batchSize fuel (fs.drop (batchSize - 1))

/-- `files.slice(i, i + batchSize)` chunking of the accumulated pending
list into consecutive batches of at most `batchSize` paths. -/
def chunkList (batchSize : Nat) (files : List String) : List (List String) :=
  chunkAux batchSize files.length files

/-- The `processQueue` drain loop: while not disposed, the queue is
nonempty and `activeBatchCount < maxConcurrent`, shift a batch, skip it
if empty, otherwise increment `activeBatchCount` and start
`processBatchAsync` on it (recorded in `inFlight` and `started`).  Fuel
is the queue length: each iteration shifts exactly one batch. -/
def processQueueAux (maxConcurrent : Nat) : Nat → QueueState → QueueState
  | 0, s => s
  | fuel + 1, s =>
    bif s.isDisposed then s
    else
      match s.batchQueue with
      | [] => s
      | batch :: rest =>
        if s.activeBatchCount < maxConcurrent then
          bif batch.isEmpty then
            processQueueAux maxConcurrent fuel { s with batchQueue := rest }
          else
            processQueueAux maxConcurrent fuel
              { s with
                  batchQueue := rest
                  activeBatchCount := s.activeBatchCount + 1
                  inFlight := s.inFlight ++ [batch]
                  started := s.started ++ [batch] }
        else s

/-- `FileChangeQueue.processQueue`. -/
def processQueue (maxConcurrent : Nat) (s : QueueState) : QueueState :=
  processQueueAux maxConcurrent s.batchQueue.length s

/-- The externally triggered events of a `FileChangeQueue`. -/
inductive QueueEvent where
  | addFile (filePath : String)
  | debounceFire
  | batchComplete (success : Bool)
  | dispose
  deriving DecidableEq

/-- One event step of the `FileChangeQueue` state machine.

* `addFile`: no-op when disposed; otherwise insert the path into the
  pending set (set semantics) and (re)arm the debounce timer — timer
  bookkeeping is captured by the separate `debounceFire` event.
* `debounceFire` (`processBatch`): no-op when disposed; take and clear
  the pending set; if it was empty produce no batches; otherwise append
  its `chunkList` cut to the batch queue and drain via `processQueue`.
* `batchComplete` (the `.finally` of `processBatchAsync`): decrement
  `activeBatchCount`, retire the completed batch from `inFlight`, and
  unconditionally re-drain — identically for a resolved and a rejected
  batch processor, because `processBatchAsync` catches the rejection
  and never rethrows.  With nothing in flight the event cannot occur
  and is a no-op.
* `dispose`: idempotent; set the disposed flag and clear the pending set
  and batch queue (in-flight batches are not aborted). -/
def queueStep (cfg : QueueConfig) (s : QueueState) : QueueEvent → QueueState
  | .addFile p =>
    bif s.isDisposed then s
    else { s with pendingFiles := addSet s.pendingFiles p }
  | .debounceFire =>
    bif s.isDisposed then s
    else
      bif s.pendingFiles.isEmpty then { s with pendingFiles := [] }
      else
        processQueue cfg.maxConcurrent
          { s with pendingFiles := []
                   batchQueue := s.batchQueue ++ chunkList cfg.batchSize s.pendingFiles }
  | .batchComplete _ =>
    match s.inFlight with
    | [] => s
    | _ :: rest =>
      processQueue cfg.maxConcurrent
        { s with activeBatchCount := s.activeBatchCount - 1, inFlight := rest }
  | .dispose =>
    bif s.isDisposed then s
    else { s with isDisposed := true, pendingFiles := [], batchQueue := [] }

/-- An execution of the queue from construction through a sequence of
events. -/
def runQueue (cfg : QueueConfig) (events : List QueueEvent) : QueueState :=
  events.foldl (queueStep cfg) initialQueueState

/-! ## Shared matching predicates and strategy decomposition -/

/-- The class-and-method matching rule shared by the query strategies:
class name matches by full-name equality or trailing-component
short-name equality, and the method name matches exactly. -/
def classMethodMatches (className classNameShort methodName : String)
    (rel : MethodRelationship) : Bool :=
  (rel.method.class_name == className ||
    shortName rel.method.class_name == classNameShort) &&
  rel.method.name == methodName

/-- Line tolerance: the recorded method line is within `tol` lines of the
query line. -/
def withinLines (tol : Nat) (line : Int) (rel : MethodRelationship) : Bool :=
  decide ((rel.method.line - line).natAbs ≤ tol)

/-- The same class-and-method rule applied to a `base_methods` entry. -/
def baseMethodMatches (className classNameShort methodName : String)
    (bm : MethodLocation) : Bool :=
  (bm.class_name == className || shortName bm.class_name == classNameShort) &&
  bm.name == methodName

lemma mem_allRels_of_lookup (idx : InheritanceIndex) (k : String)
    (fd : FileData) (h : lookupIndex idx k = some fd) :
    ∀ rel ∈ relsOfFileData fd, rel ∈ allRels idx := by
  intro rel hrel
  unfold lookupIndex at h
  obtain ⟨q, hq, hsnd⟩ : ∃ q, idx.find? (fun p => p.1 == k) = some q ∧ q.2 = fd := by
    cases hfind : idx.find? (fun p => p.1 == k) with
    | none => simp [hfind] at h
    | some q =>
      refine ⟨q, rfl, ?_⟩
      simpa [hfind] using h
  have hmem : q ∈ idx := List.mem_of_find?_eq_some hq
  unfold allRels
  rw [List.mem_flatten]
  exact ⟨relsOfFileData q.2, List.mem_map_of_mem _ hmem, by rw [hsnd]; exact hrel⟩

/-- C7: in `getRelationshipsForMethod`, the own-file strategy requires
the recorded line to be within ±1 of the query line, the cross-file
strategy over every indexed file accepts within ±5, and both use the
single shared class-matching rule (full-name equality or
trailing-component short-name equality) with exact method-name
equality; the base-override scan uses the same rule on `base_methods`
entries.  Stated as an exact decomposition of the query into the three
strategies phrased through the shared predicates. -/
theorem getRelationshipsForMethod_strategy_structure (idx : InheritanceIndex)
    (fp cn mn : String) (l : Int) :
    (searchFileRelationships idx (resolveFilePath idx fp) cn (shortName cn) mn l
      = (if (resolveFilePath idx fp).2 then
           match lookupIndex idx (resolveFilePath idx fp).1 with
           | some fd =>
             (relsOfFileData fd).find? (fun rel =>
               classMethodMatches cn (shortName cn) mn rel && withinLines 1 l rel)
           | none => none
         else none))
    ∧ (searchAllFiles idx cn (shortName cn) mn l
        = (allRels idx).find? (fun rel =>
            classMethodMatches cn (shortName cn) mn rel && withinLines 5 l rel))
    ∧ (searchBaseOverrides idx cn (shortName cn) mn
        = (allRels idx).find? (fun rel =>
            rel.base_methods.any (baseMethodMatches cn (shortName cn) mn)))
    ∧ (getRelationshipsForMethod idx fp cn mn l
        = match searchFileRelationships idx (resolveFilePath idx fp)
              cn (shortName cn) mn l with
          | some rel => some rel
          | none =>
            match searchAllFiles idx cn (shortName cn) mn l with
            | some rel => some rel
            | none =>
              match searchBaseOverrides idx cn (shortName cn) mn with
              | some rel =>
                some (synthesizedFor (resolveFilePath idx fp).1 cn mn l rel)
              | none => none) :=
  ⟨rfl, rfl, rfl, rfl⟩

/-- C1: when no stored method relationship anywhere in the index matches
the queried class and method directly, but some indexed relationship has
a `base_methods` entry matching the queried class (full or short name)
and method, `getRelationshipsForMethod` returns a synthesized
relationship for the queried method whose `base_methods` is empty and
whose `override_methods` is exactly the one discovered subclass
method. -/
theorem synthesizes_override_for_unstored_base (idx : InheritanceIndex)
    (fp cn mn : String) (l : Int) (r : MethodRelationship)
    (hnone : ∀ rel ∈ allRels idx,
      classMethodMatches cn (shortName cn) mn rel = false)
    (hbase : searchBaseOverrides idx cn (shortName cn) mn = some r) :
    getRelationshipsForMethod idx fp cn mn l =
      some { method := { name := mn, class_name := cn,
                         file_path := (resolveFilePath idx fp).1, line := l,
                         column := 0, end_line := l, end_column := 0 },
             base_methods := [], override_methods := [r.method] } := by
  have h1 : searchFileRelationships idx (resolveFilePath idx fp)
      cn (shortName cn) mn l = none := by
    unfold searchFileRelationships
    cases hb : (resolveFilePath idx fp).2 with
    | false => simp [hb]
    | true =>
      simp only [hb, if_true]
      cases hl : lookupIndex idx (resolveFilePath idx fp).1 with
      | none => rfl
      | some fd =>
        rw [List.find?_eq_none]
        intro rel hrel
        have hcm := hnone rel (mem_allRels_of_lookup idx _ fd hl rel hrel)
        unfold classMethodMatches at hcm
        simp only [Bool.not_eq_true]
        rw [hcm, Bool.false_and]
  have h2 : searchAllFiles idx cn (shortName cn) mn l = none := by
    unfold searchAllFiles
    rw [List.find?_eq_none]
    intro rel hrel
    have hcm := hnone rel hrel
    unfold classMethodMatches at hcm
    simp only [Bool.not_eq_true]
    rw [hcm, Bool.false_and]
  unfold getRelationshipsForMethod
  rw [h1, h2, hbase]
  rfl

/-- Concrete data for the synthesized-override scenario: file `X` stores
`Sub.foo` whose `base_methods` contain `Base.foo`, while no relationship
for `Base.foo` itself is stored anywhere. -/
def c1SubFoo : MethodRelationship :=
  { method := { name := "foo", class_name := "Sub", file_path := "X",
                line := 20, column := 4, end_line := 22, end_column := 0 }
    base_methods := [{ name := "foo", class_name := "Base", file_path := "B.py",
                       line := 3, column := 4, end_line := 5, end_column := 0 }]
    override_methods := [] }

def c1Idx : InheritanceIndex := [("X", FileData.arr [c1SubFoo])]

theorem synthesizes_override_witness :
    (∀ rel ∈ allRels c1Idx,
      classMethodMatches "Base" (shortName "Base") "foo" rel = false)
    ∧ searchBaseOverrides c1Idx "Base" (shortName "Base") "foo" = some c1SubFoo
    ∧ getRelationshipsForMethod c1Idx "B.py" "Base" "foo" 3 =
        some { method := { name := "foo", class_name := "Base",
                           file_path := (resolveFilePath c1Idx "B.py").1, line := 3,
                           column := 0, end_line := 3, end_column := 0 },
               base_methods := [], override_methods := [c1SubFoo.method] } :=
  ⟨by decide, by decide,
    synthesizes_override_for_unstored_base c1Idx "B.py" "Base" "foo" 3 c1SubFoo
      (by decide) (by decide)⟩

/-! ## Claims about `getClassInheritance` -/

/-- C2 (amended): when class-level `ClassInheritance` data is found —
locally in the resolved file or by scanning all files — every name in
the returned `baseClasses` and `subClasses` is the trailing component of
a stored class name.  (The method-level inference fallback, by contrast,
returns the stored class names unshortened; see the counterexample.) -/
theorem classLevel_names_are_trailing_components (idx : InheritanceIndex)
    (fp cn : String) (l : Option Int) (ci : ClassInheritance)
    (h : findClassInfo idx fp cn = some ci) :
    getClassInheritance idx fp cn l =
      some { baseClasses := ci.base_classes.map lastSeg,
             subClasses := ci.sub_classes.map lastSeg, classLine := ci.line }
    ∧ (∀ n ∈ ci.base_classes.map lastSeg,
        ∃ full ∈ ci.base_classes, n = lastSeg full)
    ∧ (∀ n ∈ ci.sub_classes.map lastSeg,
        ∃ full ∈ ci.sub_classes, n = lastSeg full) := by
  refine ⟨?_, ?_, ?_⟩
  · unfold getClassInheritance
    rw [h]
  · intro n hn
    rw [List.mem_map] at hn
    obtain ⟨full, hf, hlast⟩ := hn
    exact ⟨full, hf, hlast.symm⟩
  · intro n hn
    rw [List.mem_map] at hn
    obtain ⟨full, hf, hlast⟩ := hn
    exact ⟨full, hf, hlast.symm⟩

/-- Class-level data for the C2 witness: stored under the full name
`pkg.Sub`, queried by short name, with base/sub names carrying module
qualifiers that get shortened in the result. -/
def c2WCi : ClassInheritance :=
  { full_name := "pkg.Sub", base_classes := ["pkg.Base"],
    sub_classes := ["pkg2.deep.Child"], line := some 5 }

def c2WIdx : InheritanceIndex :=
  [("g", FileData.full { methods := none, classes := some [("pkg.Sub", c2WCi)] })]

theorem classLevel_names_witness :
    findClassInfo c2WIdx "g" "Sub" = some c2WCi
    ∧ (getClassInheritance c2WIdx "g" "Sub" none =
         some { baseClasses := c2WCi.base_classes.map lastSeg,
                subClasses := c2WCi.sub_classes.map lastSeg,
                classLine := c2WCi.line }
       ∧ (∀ n ∈ c2WCi.base_classes.map lastSeg,
           ∃ full ∈ c2WCi.base_classes, n = lastSeg full)
       ∧ (∀ n ∈ c2WCi.sub_classes.map lastSeg,
           ∃ full ∈ c2WCi.sub_classes, n = lastSeg full)) :=
  ⟨by decide,
    classLevel_names_are_trailing_components c2WIdx "g" "Sub" none c2WCi (by decide)⟩

/-- Index for the C2 counterexample: only method-level data exists; the
stored class names are `Sub` and `pkg.Base`. -/
def c2CexIdx : InheritanceIndex :=
  [("f", FileData.arr
    [{ method := { name := "m", class_name := "Sub", file_path := "f",
                   line := 10, column := 0, end_line := 11, end_column := 0 }
       base_methods := [{ name := "m", class_name := "pkg.Base",
                          file_path := "g", line := 2, column := 0,
                          end_line := 3, end_column := 0 }]
       override_methods := [] }])]

/-- C2 counterexample: with no class-level data anywhere, the
method-level inference fallback of `getClassInheritance` returns the
stored name `pkg.Base` unshortened — it is not the trailing component
of either stored class name (`Sub`, `pkg.Base`), refuting the claim
that returned base/sub names are always shortened to their trailing
component. -/
theorem fallback_returns_unshortened_names :
    getClassInheritance c2CexIdx "f" "Sub" none =
      some { baseClasses := ["pkg.Base"], subClasses := [], classLine := none }
    ∧ lastSeg "Sub" ≠ "pkg.Base"
    ∧ lastSeg "pkg.Base" ≠ "pkg.Base"
    ∧ shortName "Sub" ≠ "pkg.Base"
    ∧ shortName "pkg.Base" ≠ "pkg.Base" := by
  decide

/-! ## Snapshot round-trip (C6) -/

/-- C6: saving a snapshot and loading it restores the same index — the
same file set and relationship content — for every index, and in
particular the versioned envelope with a present-but-empty `index` loads
successfully as the empty index rather than failing. -/
theorem saveLoad_roundtrip (ts root : String) (idx : InheritanceIndex) :
    loadIndexFromFile (saveIndexToFile ts root idx) = some idx
    ∧ loadIndexFromFile
        (ParsedIndexFile.envelope
          { version := "1.0", timestamp := ts, workspaceRoot := root,
            index := [] }) = some ([] : InheritanceIndex) :=
  ⟨rfl, rfl⟩

/-! ## Line argument of `getClassInheritance` (C10) -/

/-- C10: `getClassInheritance` never consults its optional line
argument — the result is identical for every value (or absence) of it,
depending only on the file path, the class name and the index. -/
theorem getClassInheritance_ignores_line (idx : InheritanceIndex)
    (fp cn : String) (l₁ l₂ : Option Int) :
    getClassInheritance idx fp cn l₁ = getClassInheritance idx fp cn l₂ :=
  rfl

/-! ## Batch cutting at flush time (C3) -/

lemma chunkAux_nil (B fuel : Nat) : chunkAux B fuel [] = [] := by
  cases fuel <;> rfl

lemma chunkAux_flatten (B : Nat) (_hB : 1 ≤ B) :
    ∀ (fuel : Nat) (l : List String), l.length ≤ fuel →
      (chunkAux B fuel l).flatten = l := by
  intro fuel
  induction fuel with
  | zero =>
    intro l hl
    have : l = [] := List.eq_nil_of_length_eq_zero (Nat.le_zero.mp hl)
    subst this
    rfl
  | succ n ih =>
    intro l hl
    cases l with
    | nil => rfl
    | cons f fs =>
      have hlen : (fs.drop (B - 1)).length ≤ n := by
        simp only [List.length_drop]
        simp only [List.length_cons] at hl
        omega
      simp only [chunkAux, List.flatten_cons, ih _ hlen, List.cons_append,
        List.take_append_drop]

lemma chunkAux_length (B : Nat) (hB : 1 ≤ B) :
    ∀ (fuel : Nat) (l : List String), l.length ≤ fuel →
      (chunkAux B fuel l).length = (l.length + B - 1) / B := by
  intro fuel
  induction fuel with
  | zero =>
    intro l hl
    have : l = [] := List.eq_nil_of_length_eq_zero (Nat.le_zero.mp hl)
    subst this
    simp [chunkAux, Nat.div_eq_of_lt (by omega : B - 1 < B)]
  | succ n ih =>
    intro l hl
    cases l with
    | nil => simp [chunkAux, Nat.div_eq_of_lt (by omega : B - 1 < B)]
    | cons f fs =>
      obtain ⟨k, rfl⟩ : ∃ k, B = k + 1 := ⟨B - 1, by omega⟩
      have hlen : (fs.drop k).length ≤ n := by
        simp only [List.length_drop]
        simp only [List.length_cons] at hl
        omega
      simp only [chunkAux, List.length_cons, ih _ hlen, List.length_drop,
        Nat.add_sub_cancel]
      have hr : fs.length + 1 + (k + 1) - 1 = fs.length + (k + 1) := by omega
      rw [hr, Nat.add_div_right _ (Nat.succ_pos k)]
      by_cases hk : k ≤ fs.length
      · have h2 : fs.length - k + (k + 1) - 1 = fs.length := by omega
        rw [h2]
      · have h2 : fs.length - k + (k + 1) - 1 = k := by omega
        rw [h2, Nat.div_eq_of_lt (by omega : k < k + 1),
          Nat.div_eq_of_lt (show fs.length < k.succ by omega)]

lemma chunkAux_sizes (B : Nat) (_hB : 1 ≤ B) :
    ∀ (fuel : Nat) (l : List String), ∀ c ∈ chunkAux B fuel l, c.length ≤ B := by
  intro fuel
  induction fuel with
  | zero => intro l c hc; simp [chunkAux] at hc
  | succ n ih =>
    intro l c hc
    cases l with
    | nil => simp [chunkAux] at hc
    | cons f fs =>
      simp only [chunkAux, List.mem_cons] at hc
      rcases hc with rfl | hc
      · simp only [List.length_cons, List.length_take]
        omega
      · exact ih _ c hc

lemma chunkAux_dropLast_sizes (B : Nat) (hB : 1 ≤ B) :
    ∀ (fuel : Nat) (l : List String),
      ∀ c ∈ (chunkAux B fuel l).dropLast, c.length = B := by
  intro fuel
  induction fuel with
  | zero => intro l c hc; simp [chunkAux] at hc
  | succ n ih =>
    intro l c hc
    cases l with
    | nil => simp [chunkAux] at hc
    | cons f fs =>
      simp only [chunkAux] at hc
      cases hrest : chunkAux B n (fs.drop (B - 1)) with
      | nil => rw [hrest] at hc; simp at hc
      | cons c0 cs =>
        rw [hrest, List.dropLast_cons_of_ne_nil (by simp), List.mem_cons] at hc
        rcases hc with rfl | hc
        · have hne : fs.drop (B - 1) ≠ [] := by
            intro hnil
            rw [hnil, chunkAux_nil] at hrest
            exact List.noConfusion hrest
          have hlt : B - 1 < fs.length := by
            have := List.length_pos.mpr hne
            simp only [List.length_drop] at this
            omega
          simp only [List.length_cons, List.length_take]
          omega
        · rw [← hrest] at hc
          exact ih _ c hc

lemma mem_addSet (l : List String) (s x : String) :
    x ∈ addSet l s ↔ x ∈ l ∨ x = s := by
  unfold addSet
  cases hc : l.contains s with
  | true =>
    simp only [hc, Bool.cond_true]
    have hs : s ∈ l := List.mem_of_elem_eq_true hc
    constructor
    · exact Or.inl
    · rintro (hx | rfl) <;> assumption
  | false =>
    simp only [hc, Bool.cond_false]
    simp [List.mem_append]

lemma nodup_addSet (l : List String) (s : String) (h : l.Nodup) :
    (addSet l s).Nodup := by
  unfold addSet
  cases hc : l.contains s with
  | true => simpa [hc] using h
  | false =>
    simp only [hc, Bool.cond_false]
    rw [List.nodup_append]
    refine ⟨h, List.nodup_singleton s, ?_⟩
    intro a ha hb
    simp only [List.mem_singleton] at hb
    subst hb
    simp at hc
    exact hc ha

lemma mem_foldl_addSet (paths : List String) :
    ∀ (init : List String) (x : String),
      x ∈ paths.foldl addSet init ↔ x ∈ init ∨ x ∈ paths := by
  induction paths with
  | nil => simp
  | cons p ps ih =>
    intro init x
    rw [List.foldl_cons, ih, mem_addSet, List.mem_cons]
    tauto

lemma nodup_foldl_addSet (paths : List String) :
    ∀ (init : List String), init.Nodup → (paths.foldl addSet init).Nodup := by
  induction paths with
  | nil => intro init h; exact h
  | cons p ps ih =>
    intro init h
    exact ih _ (nodup_addSet init p h)

/-- C3: at flush time the pending set — accumulated by `addSet` from the
`addFile` calls since the last flush, hence a duplicate-free list
containing exactly the added paths in accumulation order — is cut by
`chunkList` into exactly `⌈N/B⌉` batches: every batch has at most `B`
paths, every batch except possibly the last has exactly `B`, their
concatenation is the pending list itself, and an empty pending set
produces no batches (a flush with nothing pending also leaves the queue
state untouched). -/
theorem flush_batch_properties (B : Nat) (hB : 1 ≤ B) (paths : List String) :
    (chunkList B (paths.foldl addSet [])).length
        = ((paths.foldl addSet []).length + B - 1) / B
    ∧ (∀ c ∈ chunkList B (paths.foldl addSet []), c.length ≤ B)
    ∧ (∀ c ∈ (chunkList B (paths.foldl addSet [])).dropLast, c.length = B)
    ∧ (chunkList B (paths.foldl addSet [])).flatten = paths.foldl addSet []
    ∧ (paths.foldl addSet []).Nodup
    ∧ (∀ x, x ∈ paths.foldl addSet [] ↔ x ∈ paths)
    ∧ (paths.foldl addSet [] = [] → chunkList B (paths.foldl addSet []) = [])
    ∧ (∀ (cfg : QueueConfig) (s : QueueState),
        s.isDisposed = false → s.pendingFiles = [] →
        queueStep cfg s QueueEvent.debounceFire = s) := by
  refine ⟨chunkAux_length B hB _ _ le_rfl,
    fun c hc => chunkAux_sizes B hB _ _ c hc,
    fun c hc => chunkAux_dropLast_sizes B hB _ _ c hc,
    chunkAux_flatten B hB _ _ le_rfl,
    nodup_foldl_addSet paths [] List.nodup_nil,
    fun x => by rw [mem_foldl_addSet]; simp,
    fun h => by rw [h]; rfl,
    ?_⟩
  intro cfg s hd hp
  obtain ⟨pf, bq, ab, fl, st, d⟩ := s
  simp only at hd hp
  subst hd hp
  rfl

def c3Paths : List String :=
  ["a", "b", "c", "a", "d", "e", "f", "g", "h", "i", "j"]

theorem flush_batch_witness :
    1 ≤ 3
    ∧ ((chunkList 3 (c3Paths.foldl addSet [])).length
          = ((c3Paths.foldl addSet []).length + 3 - 1) / 3
       ∧ (∀ c ∈ chunkList 3 (c3Paths.foldl addSet []), c.length ≤ 3)
       ∧ (∀ c ∈ (chunkList 3 (c3Paths.foldl addSet [])).dropLast, c.length = 3)
       ∧ (chunkList 3 (c3Paths.foldl addSet [])).flatten = c3Paths.foldl addSet []
       ∧ (c3Paths.foldl addSet []).Nodup
       ∧ (∀ x, x ∈ c3Paths.foldl addSet [] ↔ x ∈ c3Paths)
       ∧ (c3Paths.foldl addSet [] = [] → chunkList 3 (c3Paths.foldl addSet []) = [])
       ∧ (∀ (cfg : QueueConfig) (s : QueueState),
           s.isDisposed = false → s.pendingFiles = [] →
           queueStep cfg s QueueEvent.debounceFire = s)) :=
  ⟨by decide, flush_batch_properties 3 (by decide) c3Paths⟩

/-! ## Queue scheduler invariants (C4, C5, C8) -/

lemma processQueueAux_inv (maxC : Nat) :
    ∀ (fuel : Nat) (s : QueueState),
      s.activeBatchCount ≤ maxC → s.activeBatchCount = s.inFlight.length →
      (processQueueAux maxC fuel s).activeBatchCount ≤ maxC
      ∧ (processQueueAux maxC fuel s).activeBatchCount
          = (processQueueAux maxC fuel s).inFlight.length := by
  intro fuel
  induction fuel with
  | zero => intro s h1 h2; exact ⟨h1, h2⟩
  | succ n ih =>
    intro s h1 h2
    rw [processQueueAux]
    cases hd : s.isDisposed with
    | true => simp only [Bool.cond_true]; exact ⟨h1, h2⟩
    | false =>
      simp only [Bool.cond_false]
      cases hq : s.batchQueue with
      | nil => exact ⟨h1, h2⟩
      | cons batch rest =>
        dsimp only
        by_cases hlt : s.activeBatchCount < maxC
        · rw [if_pos hlt]
          cases hbe : batch.isEmpty with
          | true =>
            simp only [Bool.cond_true]
            exact ih _ h1 h2
          | false =>
            simp only [Bool.cond_false]
            refine ih _ (by simp; omega) ?_
            simp [h2]
        · rw [if_neg hlt]
          exact ⟨h1, h2⟩

lemma queueStep_inv (cfg : QueueConfig) (s : QueueState) (e : QueueEvent)
    (h1 : s.activeBatchCount ≤ cfg.maxConcurrent)
    (h2 : s.activeBatchCount = s.inFlight.length) :
    (queueStep cfg s e).activeBatchCount ≤ cfg.maxConcurrent
    ∧ (queueStep cfg s e).activeBatchCount
        = (queueStep cfg s e).inFlight.length := by
  cases e with
  | addFile p =>
    unfold queueStep
    cases hd : s.isDisposed with
    | true => simp only [Bool.cond_true]; exact ⟨h1, h2⟩
    | false => simp only [Bool.cond_false]; exact ⟨h1, h2⟩
  | debounceFire =>
    unfold queueStep
    cases hd : s.isDisposed with
    | true => simp only [Bool.cond_true]; exact ⟨h1, h2⟩
    | false =>
      simp only [Bool.cond_false]
      cases hp : s.pendingFiles.isEmpty with
      | true => simp only [Bool.cond_true]; exact ⟨h1, h2⟩
      | false =>
        simp only [Bool.cond_false]
        exact processQueueAux_inv cfg.maxConcurrent _ _ h1 h2
  | batchComplete ok =>
    unfold queueStep
    cases hin : s.inFlight with
    | nil => exact ⟨h1, h2⟩
    | cons b rest =>
      refine processQueueAux_inv cfg.maxConcurrent _ _ (by simp; omega) ?_
      simp only
      rw [h2, hin]
      simp
  | dispose =>
    unfold queueStep
    cases hd : s.isDisposed with
    | true => simp only [Bool.cond_true]; exact ⟨h1, h2⟩
    | false => simp only [Bool.cond_false]; exact ⟨h1, h2⟩

/-- C4: in every execution of the queue, `activeBatchCount` never
exceeds `maxConcurrent` — `processQueue` only starts a new batch while
strictly below the limit — and `activeBatchCount` always equals the
number of in-flight batches, so every increment is matched by the
decrement performed when that batch completes. -/
theorem activeBatchCount_bounded (cfg : QueueConfig)
    (events : List QueueEvent) :
    (runQueue cfg events).activeBatchCount ≤ cfg.maxConcurrent
    ∧ (runQueue cfg events).activeBatchCount
        = (runQueue cfg events).inFlight.length := by
  unfold runQueue
  have main : ∀ (evts : List QueueEvent) (s : QueueState),
      s.activeBatchCount ≤ cfg.maxConcurrent →
      s.activeBatchCount = s.inFlight.length →
      (evts.foldl (queueStep cfg) s).activeBatchCount ≤ cfg.maxConcurrent
      ∧ (evts.foldl (queueStep cfg) s).activeBatchCount
          = (evts.foldl (queueStep cfg) s).inFlight.length := by
    intro evts
    induction evts with
    | nil => intro s h1 h2; exact ⟨h1, h2⟩
    | cons e es ih =>
      intro s h1 h2
      rw [List.foldl_cons]
      obtain ⟨g1, g2⟩ := queueStep_inv cfg s e h1 h2
      exact ih _ g1 g2
  exact main events initialQueueState (Nat.zero_le _) rfl

lemma processQueueAux_started_mono (maxC : Nat) :
    ∀ (fuel : Nat) (s : QueueState),
      ∃ t, (processQueueAux maxC fuel s).started = s.started ++ t := by
  intro fuel
  induction fuel with
  | zero => intro s; exact ⟨[], by simp [processQueueAux]⟩
  | succ n ih =>
    intro s
    rw [processQueueAux]
    cases hd : s.isDisposed with
    | true => exact ⟨[], by simp⟩
    | false =>
      simp only [Bool.cond_false]
      cases hq : s.batchQueue with
      | nil => exact ⟨[], by simp⟩
      | cons batch rest =>
        dsimp only
        by_cases hlt : s.activeBatchCount < maxC
        · rw [if_pos hlt]
          cases hbe : batch.isEmpty with
          | true =>
            simp only [Bool.cond_true]
            exact ih _
          | false =>
            simp only [Bool.cond_false]
            obtain ⟨t, ht⟩ := ih
              { pendingFiles := s.pendingFiles
                batchQueue := rest
                activeBatchCount := s.activeBatchCount + 1
                inFlight := s.inFlight ++ [batch]
                started := s.started ++ [batch]
                isDisposed := false }
            exact ⟨[batch] ++ t, by rw [ht]; simp⟩
        · rw [if_neg hlt]
          exact ⟨[], by simp⟩

lemma processQueueAux_starts_head (maxC : Nat) (s : QueueState)
    (b : List String) (q : List (List String)) (fuel : Nat)
    (hd : s.isDisposed = false) (hq : s.batchQueue = b :: q)
    (hb : b.isEmpty = false) (hlt : s.activeBatchCount < maxC) :
    b ∈ (processQueueAux maxC (fuel + 1) s).started := by
  rw [processQueueAux, hd]
  simp only [Bool.cond_false, hq, if_pos hlt, hb]
  obtain ⟨t, ht⟩ := processQueueAux_started_mono maxC fuel
    { pendingFiles := s.pendingFiles
      batchQueue := q
      activeBatchCount := s.activeBatchCount + 1
      inFlight := s.inFlight ++ [b]
      started := s.started ++ [b]
      isDisposed := false }
  rw [ht]
  simp

/-- C5: a batch whose processor rejects is handled exactly like one that
succeeds (the rejection is caught inside `processBatchAsync` and never
rethrown to the caller): `activeBatchCount` is still decremented
(visible directly when nothing is queued), and the drain is re-invoked,
so a nonempty batch waiting at the head of the queue is handed to the
processor whenever the freed capacity admits it. -/
theorem rejected_batch_keeps_queue_draining (cfg : QueueConfig)
    (s : QueueState) (b : List String) (rest : List (List String))
    (hin : s.inFlight = b :: rest) :
    queueStep cfg s (.batchComplete false) = queueStep cfg s (.batchComplete true)
    ∧ (s.batchQueue = [] →
        (queueStep cfg s (.batchComplete false)).activeBatchCount
          = s.activeBatchCount - 1)
    ∧ (∀ b' q', s.isDisposed = false → s.batchQueue = b' :: q' →
        b'.isEmpty = false →
        s.activeBatchCount - 1 < cfg.maxConcurrent →
        b' ∈ (queueStep cfg s (.batchComplete false)).started) := by
  refine ⟨rfl, ?_, ?_⟩
  · intro hq
    unfold queueStep
    rw [hin]
    unfold processQueue
    simp [hq, processQueueAux]
  · intro b' q' hd hq hb hlt
    unfold queueStep
    dsimp only
    rw [hin]
    dsimp only
    unfold processQueue
    dsimp only
    rw [hq, List.length_cons]
    exact processQueueAux_starts_head cfg.maxConcurrent _ b' q' q'.length
      hd rfl hb hlt

def c5State : QueueState :=
  { pendingFiles := [], batchQueue := [["b"]], activeBatchCount := 1,
    inFlight := [["a"]], started := [["a"]], isDisposed := false }

theorem rejected_batch_witness :
    c5State.inFlight = ["a"] :: []
    ∧ (queueStep ⟨1, 1⟩ c5State (.batchComplete false)
         = queueStep ⟨1, 1⟩ c5State (.batchComplete true)
       ∧ (c5State.batchQueue = [] →
           (queueStep ⟨1, 1⟩ c5State (.batchComplete false)).activeBatchCount
             = c5State.activeBatchCount - 1)
       ∧ (∀ b' q', c5State.isDisposed = false →
           c5State.batchQueue = b' :: q' →
           b'.isEmpty = false →
           c5State.activeBatchCount - 1 < (⟨1, 1⟩ : QueueConfig).maxConcurrent →
           b' ∈ (queueStep ⟨1, 1⟩ c5State (.batchComplete false)).started)) :=
  ⟨by decide,
    rejected_batch_keeps_queue_draining ⟨1, 1⟩ c5State ["a"] [] (by decide)⟩

lemma processQueueAux_of_disposed (maxC fuel : Nat) (s : QueueState)
    (h : s.isDisposed = true) : processQueueAux maxC fuel s = s := by
  cases fuel with
  | zero => rfl
  | succ n => rw [processQueueAux, h]; rfl

lemma processQueueAux_isDisposed (maxC : Nat) :
    ∀ (fuel : Nat) (s : QueueState),
      (processQueueAux maxC fuel s).isDisposed = s.isDisposed := by
  intro fuel
  induction fuel with
  | zero => intro s; rfl
  | succ n ih =>
    intro s
    rw [processQueueAux]
    cases hd : s.isDisposed with
    | true => exact hd
    | false =>
      simp only [Bool.cond_false]
      cases hq : s.batchQueue with
      | nil => exact hd
      | cons batch rest =>
        dsimp only
        by_cases hlt : s.activeBatchCount < maxC
        · rw [if_pos hlt]
          cases hbe : batch.isEmpty with
          | true => simp only [Bool.cond_true]; rw [ih]
          | false => simp only [Bool.cond_false]; rw [ih]
        · rw [if_neg hlt]; exact hd

lemma queueStep_disposed_mono (cfg : QueueConfig) (s : QueueState)
    (e : QueueEvent) (h : s.isDisposed = true) :
    (queueStep cfg s e).isDisposed = true := by
  cases e with
  | addFile p => unfold queueStep; rw [h]; exact h
  | debounceFire => unfold queueStep; rw [h]; exact h
  | batchComplete ok =>
    unfold queueStep
    dsimp only
    cases hin : s.inFlight with
    | nil => exact h
    | cons b rest =>
      dsimp only
      rw [processQueue, processQueueAux_isDisposed]
      exact h
  | dispose => unfold queueStep; rw [h]; exact h

lemma dispose_sets_flag (cfg : QueueConfig) (s : QueueState) :
    (queueStep cfg s .dispose).isDisposed = true := by
  unfold queueStep
  cases hd : s.isDisposed with
  | true => exact hd
  | false => rfl

lemma queueStep_disposedClean (cfg : QueueConfig) (s : QueueState)
    (e : QueueEvent)
    (h : s.isDisposed = true → s.pendingFiles = [] ∧ s.batchQueue = []) :
    (queueStep cfg s e).isDisposed = true →
      (queueStep cfg s e).pendingFiles = []
      ∧ (queueStep cfg s e).batchQueue = [] := by
  cases e with
  | addFile p =>
    unfold queueStep
    cases hd : s.isDisposed with
    | true => simpa using h
    | false =>
      simp only [Bool.cond_false]
      intro hcontra
      simp [hd] at hcontra
  | debounceFire =>
    unfold queueStep
    cases hd : s.isDisposed with
    | true => simpa using h
    | false =>
      simp only [Bool.cond_false]
      cases hp : s.pendingFiles.isEmpty with
      | true =>
        simp only [Bool.cond_true]
        intro hcontra
        simp [hd] at hcontra
      | false =>
        simp only [Bool.cond_false]
        intro hcontra
        rw [processQueue, processQueueAux_isDisposed] at hcontra
        simp [hd] at hcontra
  | batchComplete ok =>
    unfold queueStep
    dsimp only
    cases hin : s.inFlight with
    | nil => exact h
    | cons b rest =>
      dsimp only
      intro hcontra
      rw [processQueue, processQueueAux_isDisposed] at hcontra
      have hsd : s.isDisposed = true := by simpa using hcontra
      obtain ⟨hpend, hqueue⟩ := h hsd
      rw [processQueue, processQueueAux_of_disposed _ _ _ (by simpa using hsd)]
      exact ⟨by simpa using hpend, by simpa using hqueue⟩
  | dispose =>
    unfold queueStep
    cases hd : s.isDisposed with
    | true => simpa using h
    | false =>
      intro _
      exact ⟨rfl, rfl⟩

lemma foldl_disposed_mono (cfg : QueueConfig) (evts : List QueueEvent) :
    ∀ s : QueueState, s.isDisposed = true →
      (evts.foldl (queueStep cfg) s).isDisposed = true := by
  induction evts with
  | nil => intro s h; exact h
  | cons e es ih =>
    intro s h
    rw [List.foldl_cons]
    exact ih _ (queueStep_disposed_mono cfg s e h)

lemma run_disposed_of_mem (cfg : QueueConfig) (evts : List QueueEvent)
    (h : QueueEvent.dispose ∈ evts) :
    (runQueue cfg evts).isDisposed = true := by
  unfold runQueue
  have main : ∀ (l : List QueueEvent) (s : QueueState),
      QueueEvent.dispose ∈ l → (l.foldl (queueStep cfg) s).isDisposed = true := by
    intro l
    induction l with
    | nil => intro s hmem; cases hmem
    | cons e es ih =>
      intro s hmem
      rw [List.foldl_cons]
      rcases List.mem_cons.mp hmem with heq | hmem'
      · cases heq
        exact foldl_disposed_mono cfg es _ (dispose_sets_flag cfg s)
      · exact ih _ hmem'
  exact main evts initialQueueState h

lemma run_disposedClean (cfg : QueueConfig) (evts : List QueueEvent) :
    (runQueue cfg evts).isDisposed = true →
      (runQueue cfg evts).pendingFiles = []
      ∧ (runQueue cfg evts).batchQueue = [] := by
  unfold runQueue
  have main : ∀ (l : List QueueEvent) (s : QueueState),
      (s.isDisposed = true → s.pendingFiles = [] ∧ s.batchQueue = []) →
      ((l.foldl (queueStep cfg) s).isDisposed = true →
        (l.foldl (queueStep cfg) s).pendingFiles = []
        ∧ (l.foldl (queueStep cfg) s).batchQueue = []) := by
    intro l
    induction l with
    | nil => intro s h; exact h
    | cons e es ih =>
      intro s h
      rw [List.foldl_cons]
      exact ih _ (queueStep_disposedClean cfg s e h)
  exact main evts initialQueueState (by intro hc; cases hc)

/-- C8: once `dispose()` has been called, every subsequent `addFile` is
a no-op — the state is unchanged, the pending set and batch queue are
(and remain) empty, and no batch is ever produced or handed to the batch
processor as a result of the call. -/
theorem addFile_noop_after_dispose (cfg : QueueConfig)
    (events : List QueueEvent) (p : String)
    (h : QueueEvent.dispose ∈ events) :
    queueStep cfg (runQueue cfg events) (.addFile p) = runQueue cfg events
    ∧ (runQueue cfg events).pendingFiles = []
    ∧ (runQueue cfg events).batchQueue = []
    ∧ (queueStep cfg (runQueue cfg events) (.addFile p)).started
        = (runQueue cfg events).started := by
  have hd := run_disposed_of_mem cfg events h
  obtain ⟨hp, hq⟩ := run_disposedClean cfg events hd
  have hstep : queueStep cfg (runQueue cfg events) (.addFile p)
      = runQueue cfg events := by
    unfold queueStep
    rw [hd]
    rfl
  exact ⟨hstep, hp, hq, by rw [hstep]⟩

theorem addFile_noop_witness :
    QueueEvent.dispose ∈ ([.addFile "a", .dispose] : List QueueEvent)
    ∧ (queueStep ⟨50, 10⟩ (runQueue ⟨50, 10⟩ [.addFile "a", .dispose]) (.addFile "b")
         = runQueue ⟨50, 10⟩ [.addFile "a", .dispose]
       ∧ (runQueue ⟨50, 10⟩ [.addFile "a", .dispose]).pendingFiles = []
       ∧ (runQueue ⟨50, 10⟩ [.addFile "a", .dispose]).batchQueue = []
       ∧ (queueStep ⟨50, 10⟩ (runQueue ⟨50, 10⟩ [.addFile "a", .dispose])
            (.addFile "b")).started
           = (runQueue ⟨50, 10⟩ [.addFile "a", .dispose]).started) :=
  ⟨by decide,
    addFile_noop_after_dispose ⟨50, 10⟩ [.addFile "a", .dispose] "b" (by decide)⟩

/-! ## On-demand indexing always releases its in-flight mark (C9) -/

lemma filter_ne_of_not_contains (l : List String) (p : String)
    (h : l.contains p = false) : removeSet l p = l := by
  unfold removeSet
  refine List.filter_eq_self.mpr ?_
  intro a ha
  simp at h
  have hne : a ≠ p := by
    intro heq
    subst heq
    exact h ha
  simpa using hne

lemma removeSet_addSet (l : List String) (p : String)
    (h : l.contains p = false) : removeSet (addSet l p) p = l := by
  unfold addSet
  rw [h]
  simp only [Bool.cond_false]
  unfold removeSet
  rw [List.filter_append]
  have h1 : List.filter (fun x => x != p) l = l := filter_ne_of_not_contains l p h
  have h2 : List.filter (fun x => x != p) [p] = [] := by simp
  rw [h1, h2, List.append_nil]

/-- C9: an `_indexFileOnDemand` attempt that passes all five guards
(file not indexed, no sticky syntax error, not already in flight, file
exists, inside the workspace root) marks the path in `filesBeingIndexed`
and — on success and on failure alike, via the `finally` block — removes
it again when the attempt completes: the in-flight set ends exactly as
it began, so a failed attempt never permanently blocks future on-demand
indexing of the path. -/
theorem onDemand_always_unmarks (root : String) (fe : Bool)
    (st : ManagerState) (p : String) (outcome : AnalyzeOutcome)
    (h1 : (lookupIndex st.index p).isSome = false)
    (h2 : st.filesWithSyntaxErrors.contains p = false)
    (h3 : st.filesBeingIndexed.contains p = false)
    (h4 : fe = true)
    (h5 : strStartsWith p root = true) :
    (indexFileOnDemand root fe st p outcome).filesBeingIndexed
      = st.filesBeingIndexed
    ∧ (indexFileOnDemand root fe st p outcome).filesBeingIndexed.contains p
        = false := by
  have main : (indexFileOnDemand root fe st p outcome).filesBeingIndexed
      = st.filesBeingIndexed := by
    unfold indexFileOnDemand
    rw [h1, h2, h3, h4, h5]
    simp only [Bool.not_true, Bool.cond_false]
    cases outcome with
    | success fileIndex =>
      exact removeSet_addSet st.filesBeingIndexed p h3
    | failure msg =>
      dsimp only
      cases hmsg : (strIncludes msg "invalid syntax"
          || strIncludes msg "syntax error") with
      | true =>
        simp only [Bool.cond_true]
        exact removeSet_addSet st.filesBeingIndexed p h3
      | false =>
        simp only [Bool.cond_false]
        exact removeSet_addSet st.filesBeingIndexed p h3
  exact ⟨main, by rw [main]; exact h3⟩

theorem onDemand_always_unmarks_witness :
    ((lookupIndex (⟨[], [], []⟩ : ManagerState).index "/ws/a.py").isSome = false
     ∧ (⟨[], [], []⟩ : ManagerState).filesWithSyntaxErrors.contains "/ws/a.py" = false
     ∧ (⟨[], [], []⟩ : ManagerState).filesBeingIndexed.contains "/ws/a.py" = false
     ∧ strStartsWith "/ws/a.py" "/ws" = true)
    ∧ ((indexFileOnDemand "/ws" true ⟨[], [], []⟩ "/ws/a.py"
          (.failure "unexpected: invalid syntax")).filesBeingIndexed
        = (⟨[], [], []⟩ : ManagerState).filesBeingIndexed
       ∧ (indexFileOnDemand "/ws" true ⟨[], [], []⟩ "/ws/a.py"
            (.failure "unexpected: invalid syntax")).filesBeingIndexed.contains
            "/ws/a.py" = false) :=
  ⟨⟨by decide, by decide, by decide, by decide⟩,
    onDemand_always_unmarks "/ws" true ⟨[], [], []⟩ "/ws/a.py"
      (.failure "unexpected: invalid syntax")
      (by decide) (by decide) (by decide) (by decide) (by decide)⟩

end PyInherit
